import Mathlib

/-!
Verification development for the document-report pipeline
(document chunking, keyword retrieval, and multi-strategy LLM
analysis orchestration).

Texts are modelled as lists of characters (`Str`).  The LLM
collaborator, the document-extraction collaborator and the TF-IDF
vectorizer are external effects; they are modelled as oracle
functions passed explicitly, with `Option`/`Except` encoding a
transport or parse failure of one call.  Structured LLM responses
are modelled as typed records (the JSON shapes requested by the
prompts); a response that fails to parse into the record is the
oracle returning `none` / `.error`.
-/

namespace GR

/-- Document text as a list of characters. -/
abbrev Str := List Char

/-- Sentence-terminal punctuation, the character class of the
`[.!?]+` pattern in `DocumentProcessor.create_chunks`. -/
def isTerm (c : Char) : Bool := c = '.' || c = '!' || c = '?'

/-- ASCII whitespace as recognised by Python `str.strip` / `str.split`. -/
def isSpace (c : Char) : Bool :=
  c = ' ' || c = '\t' || c = '\n' || c = '\r' || c = '\x0b' || c = '\x0c'

/-- Drop leading whitespace (left half of Python `str.strip`). -/
def lstrip (s : Str) : Str := s.dropWhile isSpace

/-- Drop trailing whitespace (right half of Python `str.strip`). -/
def rstrip (s : Str) : Str := (s.reverse.dropWhile isSpace).reverse

/-- Python `str.strip`: drop leading and trailing whitespace. -/
def strip (s : Str) : Str := rstrip (lstrip s)

/-- Prepend a character to the first segment of a segment list. -/
def consHead (c : Char) : List Str → List Str
  | [] => [[c]]
  | seg :: rest => (c :: seg) :: rest

/-- Worker for `reSplitTerm`.  The flag records whether the previous
character belonged to a run of sentence terminators (`re.split` with a
`+` pattern merges consecutive delimiters into one split point). -/
def splitTermAux : Bool → Str → List Str
  | _, [] => [[]]
  | inRun, c :: cs =>
    if isTerm c then
      if inRun then splitTermAux true cs
      else [] :: splitTermAux true cs
    else consHead c (splitTermAux false cs)

/-- Python `re.split(r'[.!?]+', text)`: split `text` at maximal runs of
sentence-terminal punctuation, keeping empty segments at the ends. -/
def reSplitTerm (s : Str) : List Str := splitTermAux false s

/-- Metadata of an extracted document, as consumed by
`create_chunks` (`document_type` and in the PDF case `total_pages`). -/
structure Metadata where
  document_type : String
  total_pages : Nat
deriving DecidableEq

/-- Extraction result as consumed by the chunker and the chatbot:
the concatenated full text and the metadata record. -/
structure TextContent where
  full_text : Str
  metadata : Metadata
deriving DecidableEq

/-- The adaptive chunk-size rule at the top of
`DocumentProcessor.create_chunks`: for a PDF the configured maximum is
overridden to 6000 characters above 100 pages and to 5000 above
50 pages; all other documents keep the configured maximum. -/
def adjustChunkSize (metadata : Metadata) (max_chunk_size : Nat) : Nat :=
  if metadata.document_type = "PDF" then
    if metadata.total_pages > 100 then 6000
    else if metadata.total_pages > 50 then 5000
    else max_chunk_size
  else max_chunk_size

/-- The sentence-accumulation loop of `DocumentProcessor.create_chunks`:
strip each sentence candidate, skip empty ones, append a sentence
(plus `". "`) to the running buffer while the length check passes,
otherwise seal the stripped buffer as a chunk and restart the buffer
from the current sentence.  The final non-empty buffer is sealed. -/
def chunkLoop (maxSize : Nat) : List Str → Str → List Str
  | [], cur => if cur = [] then [] else [strip cur]
  | raw :: rest, cur =>
    let s := strip raw
    if s = [] then chunkLoop maxSize rest cur
    else if (cur ++ s).length ≤ maxSize then
      chunkLoop maxSize rest (cur ++ s ++ ['.', ' '])
    else
      (if cur = [] then [] else [strip cur]) ++ chunkLoop maxSize rest (s ++ ['.', ' '])

/-- `DocumentProcessor.create_chunks`: adjust the maximum chunk size
from the document metadata, split the full text into sentence
candidates, and run the accumulation loop.  The Python default for
`max_chunk_size` is 4000. -/
def create_chunks (text_content : TextContent) (max_chunk_size : Nat := 4000) : List Str :=
  chunkLoop (adjustChunkSize text_content.metadata max_chunk_size)
    (reSplitTerm text_content.full_text) []

/-- Strip every candidate and drop the empty ones — the effective
sentence list the chunk loop works through. -/
def cleanList (raws : List Str) : List Str :=
  (raws.map strip).filter (fun s => !s.isEmpty)

/-- The sentence sequence of a text: split at sentence terminators,
strip, drop empties. -/
def sentences (t : Str) : List Str := cleanList (reSplitTerm t)

/-- The chunk loop specialised to an already stripped and filtered
sentence list. -/
def cleanLoop (maxSize : Nat) : List Str → Str → List Str
  | [], cur => if cur = [] then [] else [strip cur]
  | s :: rest, cur =>
    if (cur ++ s).length ≤ maxSize then
      cleanLoop maxSize rest (cur ++ s ++ ['.', ' '])
    else
      (if cur = [] then [] else [strip cur]) ++ cleanLoop maxSize rest (s ++ ['.', ' '])

/-- The running buffer built from a group of sentences: each sentence
followed by `". "`. -/
def glue : List Str → Str
  | [] => []
  | s :: rest => s ++ '.' :: ' ' :: glue rest

/-- A sealed chunk built from a group of sentences: the buffer with
the final trailing space stripped. -/
def sealChunk : List Str → Str
  | [] => []
  | [s] => s ++ ['.']
  | s :: rest => s ++ '.' :: ' ' :: sealChunk rest

/-- A clean sentence: non-empty, no leading or trailing whitespace,
and no sentence-terminal character (true of every element of
`sentences t`). -/
def Clean (s : Str) : Prop :=
  s ≠ [] ∧ (∀ c, s.head? = some c → isSpace c = false) ∧
    (∀ c, s.getLast? = some c → isSpace c = false) ∧
    (∀ c ∈ s, isTerm c = false)

theorem dropWhile_head_false {p : Char → Bool} :
    ∀ (l : Str) {c : Char}, (l.dropWhile p).head? = some c → p c = false := by
  intro l
  induction l with
  | nil => intro c h; simp at h
  | cons a t ih =>
    intro c h
    rw [List.dropWhile_cons] at h
    by_cases hp : p a = true
    · exact ih (by simpa [hp] using h)
    · rw [if_neg hp] at h
      have hac : a = c := by simpa using h
      rw [← hac]
      exact Bool.eq_false_iff.mpr hp

theorem dropWhile_eq_self {p : Char → Bool} {l : Str}
    (h : ∀ c, l.head? = some c → p c = false) : l.dropWhile p = l := by
  cases l with
  | nil => rfl
  | cons a t => rw [List.dropWhile_cons, h a rfl]; simp

theorem dropWhile_append_of_ne_nil {p : Char → Bool} :
    ∀ (u v : Str), u.dropWhile p ≠ [] → (u ++ v).dropWhile p = u.dropWhile p ++ v := by
  intro u
  induction u with
  | nil => intro v h; simp at h
  | cons a t ih =>
    intro v h
    rw [List.dropWhile_cons] at h ⊢
    by_cases hp : p a = true
    · simp only [hp, if_true, List.cons_append, List.dropWhile_cons, hp]
      exact ih v (by simpa [hp] using h)
    · simp [hp]

theorem rstrip_decomp (s : Str) : s = rstrip s ++ (s.reverse.takeWhile isSpace).reverse := by
  unfold rstrip
  rw [← List.reverse_append, List.takeWhile_append_dropWhile, List.reverse_reverse]

theorem mem_rstrip {c : Char} {s : Str} (h : c ∈ rstrip s) : c ∈ s := by
  rw [rstrip_decomp s]
  exact List.mem_append_left _ h

theorem mem_lstrip {c : Char} {s : Str} (h : c ∈ lstrip s) : c ∈ s :=
  (List.dropWhile_sublist _).mem h

theorem mem_strip {c : Char} {s : Str} (h : c ∈ strip s) : c ∈ s :=
  mem_lstrip (mem_rstrip h)

theorem head?_rstrip {s : Str} {c : Char} (h : (rstrip s).head? = some c) :
    s.head? = some c := by
  have hne : rstrip s ≠ [] := by intro hnil; rw [hnil] at h; simp at h
  conv_lhs => rw [rstrip_decomp s]
  rw [List.head?_append_of_ne_nil _ hne, h]

theorem rstrip_getLast {s : Str} {c : Char} (h : (rstrip s).getLast? = some c) :
    isSpace c = false := by
  unfold rstrip at h
  rw [List.getLast?_reverse] at h
  exact dropWhile_head_false _ h

theorem lstrip_head {s : Str} {c : Char} (h : (lstrip s).head? = some c) :
    isSpace c = false :=
  dropWhile_head_false _ h

theorem strip_head {s : Str} {c : Char} (h : (strip s).head? = some c) :
    isSpace c = false :=
  lstrip_head (head?_rstrip h)

theorem strip_getLast {s : Str} {c : Char} (h : (strip s).getLast? = some c) :
    isSpace c = false :=
  rstrip_getLast h

theorem lstrip_eq_self {s : Str} (h : ∀ c, s.head? = some c → isSpace c = false) :
    lstrip s = s :=
  dropWhile_eq_self h

theorem rstrip_eq_self {s : Str} (h : ∀ c, s.getLast? = some c → isSpace c = false) :
    rstrip s = s := by
  unfold rstrip
  rw [dropWhile_eq_self, List.reverse_reverse]
  intro c hc
  exact h c (by rwa [List.head?_reverse] at hc)

theorem strip_eq_self {s : Str}
    (h1 : ∀ c, s.head? = some c → isSpace c = false)
    (h2 : ∀ c, s.getLast? = some c → isSpace c = false) : strip s = s := by
  unfold strip
  rw [lstrip_eq_self h1, rstrip_eq_self h2]

theorem strip_cons_space {c : Char} {s : Str} (h : isSpace c = true) :
    strip (c :: s) = strip s := by
  unfold strip lstrip
  rw [List.dropWhile_cons, h]
  simp

theorem rstrip_append_dot_space (x : Str) : rstrip (x ++ ['.', ' ']) = x ++ ['.'] := by
  have h1 : isSpace ' ' = true := by decide
  have h2 : isSpace '.' = false := by decide
  unfold rstrip
  rw [List.reverse_append]
  have hrev : List.reverse ['.', ' '] = [' ', '.'] := rfl
  rw [hrev, List.cons_append, List.cons_append, List.nil_append,
    List.dropWhile_cons, h1]
  simp only [if_true]
  rw [List.dropWhile_cons, h2]
  simp only [Bool.false_eq_true, if_false, List.reverse_cons, List.reverse_reverse]

theorem rstrip_append_of_ne_nil {u v : Str} (h : rstrip v ≠ []) :
    rstrip (u ++ v) = u ++ rstrip v := by
  unfold rstrip at h ⊢
  have hv : v.reverse.dropWhile isSpace ≠ [] := by
    intro hnil; rw [hnil] at h; simp at h
  rw [List.reverse_append, dropWhile_append_of_ne_nil _ _ hv, List.reverse_append,
    List.reverse_reverse]

theorem splitTermAux_ne_nil : ∀ (b : Bool) (t : Str), splitTermAux b t ≠ [] := by
  intro b t
  induction t generalizing b with
  | nil => simp [splitTermAux]
  | cons c cs ih =>
    rw [splitTermAux]
    by_cases hc : isTerm c = true
    · rw [if_pos hc]
      cases b
      · simp
      · exact ih true
    · rw [if_neg hc]
      cases hsp : splitTermAux false cs with
      | nil => exact absurd hsp (ih false)
      | cons seg rest => simp [consHead]

theorem splitTermAux_noTerm :
    ∀ (t : Str) (b : Bool), ∀ seg ∈ splitTermAux b t, ∀ c ∈ seg, isTerm c = false := by
  intro t
  induction t with
  | nil =>
    intro b seg hseg c hc
    simp [splitTermAux] at hseg
    subst hseg
    simp at hc
  | cons a cs ih =>
    intro b seg hseg c hc
    rw [splitTermAux] at hseg
    by_cases ha : isTerm a = true
    · rw [if_pos ha] at hseg
      cases b with
      | true => exact ih true seg hseg c hc
      | false =>
        rcases List.mem_cons.1 hseg with h | h
        · subst h; simp at hc
        · exact ih true seg h c hc
    · rw [if_neg ha] at hseg
      cases hsp : splitTermAux false cs with
      | nil => exact absurd hsp (splitTermAux_ne_nil false cs)
      | cons seg0 rest =>
        rw [hsp] at hseg
        simp only [consHead] at hseg
        rcases List.mem_cons.1 hseg with h | h
        · subst h
          rcases List.mem_cons.1 hc with h' | h'
          · subst h'; exact Bool.eq_false_iff.mpr ha
          · exact ih false seg0 (hsp ▸ List.mem_cons_self seg0 rest) c h'
        · exact ih false seg (hsp ▸ List.mem_cons.2 (Or.inr h)) c hc

theorem splitTermAux_true_eq_false {t : Str}
    (ht : ∀ c, t.head? = some c → isTerm c = false) :
    splitTermAux true t = splitTermAux false t := by
  cases t with
  | nil => rfl
  | cons c cs =>
    have hc : isTerm c = false := ht c rfl
    rw [splitTermAux, splitTermAux, hc]
    simp

theorem splitTermAux_append_dot {s : Str} (t : Str)
    (hs : ∀ c ∈ s, isTerm c = false)
    (ht : ∀ c, t.head? = some c → isTerm c = false) :
    splitTermAux false (s ++ '.' :: t) = s :: splitTermAux false t := by
  induction s with
  | nil =>
    have hdot : isTerm '.' = true := by decide
    rw [List.nil_append, splitTermAux, hdot]
    simp only [if_true, Bool.false_eq_true, if_false]
    rw [splitTermAux_true_eq_false ht]
  | cons a s' ih =>
    have ha : isTerm a = false := hs a (List.mem_cons_self a s')
    rw [List.cons_append, splitTermAux, ha]
    simp only [Bool.false_eq_true, if_false]
    rw [ih (fun c hc => hs c (List.mem_cons.2 (Or.inr hc)))]
    rfl

theorem cleanList_cons (x : Str) (xs : List Str) :
    cleanList (x :: xs) =
      if strip x = [] then cleanList xs else strip x :: cleanList xs := by
  unfold cleanList
  rw [List.map_cons, List.filter_cons]
  by_cases h : strip x = []
  · simp [h]
  · simp [h, List.isEmpty_iff]

theorem sentences_clean {t : Str} : ∀ s ∈ sentences t, Clean s := by
  intro s hs
  unfold sentences cleanList at hs
  rw [List.mem_filter] at hs
  obtain ⟨hmem, hne⟩ := hs
  rw [List.mem_map] at hmem
  obtain ⟨seg, hseg, hstrip⟩ := hmem
  have hsne : s ≠ [] := by
    intro hnil
    rw [hnil] at hne
    simp at hne
  refine ⟨hsne, ?_, ?_, ?_⟩
  · intro c hc
    exact strip_head (hstrip ▸ hc)
  · intro c hc
    exact strip_getLast (hstrip ▸ hc)
  · intro c hc
    exact splitTermAux_noTerm t false seg hseg c (mem_strip (hstrip ▸ hc))

theorem chunkLoop_eq_cleanLoop (m : Nat) :
    ∀ (raws : List Str) (cur : Str), chunkLoop m raws cur = cleanLoop m (cleanList raws) cur := by
  intro raws
  induction raws with
  | nil => intro cur; rfl
  | cons raw rest ih =>
    intro cur
    rw [chunkLoop, cleanList_cons]
    by_cases h : strip raw = []
    · rw [if_pos h]
      simp only [h, if_true]
      exact ih cur
    · rw [if_neg h]
      simp only [h, if_false]
      rw [cleanLoop]
      by_cases hfit : (cur ++ strip raw).length ≤ m
      · rw [if_pos hfit, if_pos hfit]
        exact ih _
      · rw [if_neg hfit, if_neg hfit, ih _]

theorem glue_cons (s : Str) (g : List Str) : glue (s :: g) = s ++ '.' :: ' ' :: glue g := rfl

theorem glue_singleton (s : Str) : glue [s] = s ++ ['.', ' '] := rfl

theorem glue_eq_nil {g : List Str} : glue g = [] ↔ g = [] := by
  cases g with
  | nil => simp [glue]
  | cons s rest =>
    constructor
    · intro h
      rw [glue_cons, List.append_eq_nil] at h
      exact absurd h.2 (List.cons_ne_nil _ _)
    · intro h
      exact absurd h (List.cons_ne_nil _ _)

theorem glue_append_singleton (g : List Str) (s : Str) :
    glue (g ++ [s]) = glue g ++ s ++ ['.', ' '] := by
  induction g with
  | nil => simp [glue]
  | cons x xs ih =>
    rw [List.cons_append, glue_cons, glue_cons, ih]
    simp

theorem sealChunk_single (s : Str) : sealChunk [s] = s ++ ['.'] := rfl

theorem sealChunk_pair (s x : Str) (xs : List Str) :
    sealChunk (s :: x :: xs) = s ++ '.' :: ' ' :: sealChunk (x :: xs) := rfl

theorem sealChunk_ne_nil : ∀ {g : List Str}, g ≠ [] → sealChunk g ≠ [] := by
  intro g hg
  cases g with
  | nil => exact absurd rfl hg
  | cons s rest =>
    cases rest with
    | nil =>
      rw [sealChunk_single]
      simp
    | cons x xs =>
      rw [sealChunk_pair]
      intro h
      rw [List.append_eq_nil] at h
      exact absurd h.2 (List.cons_ne_nil _ _)

theorem rstrip_glue : ∀ {g : List Str}, g ≠ [] → rstrip (glue g) = sealChunk g := by
  intro g
  induction g with
  | nil => intro h; exact absurd rfl h
  | cons s rest ih =>
    intro _
    cases rest with
    | nil =>
      rw [glue_singleton, rstrip_append_dot_space, sealChunk_single]
    | cons x xs =>
      rw [glue_cons, sealChunk_pair]
      have hassoc : s ++ '.' :: ' ' :: glue (x :: xs) = (s ++ ['.', ' ']) ++ glue (x :: xs) := by
        simp
      have hne : rstrip (glue (x :: xs)) ≠ [] := by
        rw [ih (List.cons_ne_nil x xs)]
        exact sealChunk_ne_nil (List.cons_ne_nil x xs)
      rw [hassoc, rstrip_append_of_ne_nil hne, ih (List.cons_ne_nil x xs)]
      simp

theorem lstrip_glue {g : List Str} (hg : ∀ s ∈ g, Clean s) : lstrip (glue g) = glue g := by
  apply lstrip_eq_self
  intro c hc
  cases g with
  | nil => simp [glue] at hc
  | cons s rest =>
    rw [glue_cons] at hc
    obtain ⟨hne, hhead, _, _⟩ := hg s (List.mem_cons_self s rest)
    rw [List.head?_append_of_ne_nil _ hne] at hc
    exact hhead c hc

theorem strip_glue {g : List Str} (hg : ∀ s ∈ g, Clean s) (hgne : g ≠ []) :
    strip (glue g) = sealChunk g := by
  unfold strip
  rw [lstrip_glue hg, rstrip_glue hgne]

theorem sealChunk_length : ∀ {g : List Str}, g ≠ [] → (sealChunk g).length + 1 = (glue g).length := by
  intro g
  induction g with
  | nil => intro h; exact absurd rfl h
  | cons s rest ih =>
    intro _
    cases rest with
    | nil =>
      rw [sealChunk_single, glue_singleton]
      simp
    | cons x xs =>
      rw [sealChunk_pair, glue_cons]
      have := ih (List.cons_ne_nil x xs)
      simp only [List.length_append, List.length_cons] at this ⊢
      omega

theorem sealChunk_head? {s : Str} (hne : s ≠ []) (g : List Str) :
    (sealChunk (s :: g)).head? = s.head? := by
  cases g with
  | nil =>
    rw [sealChunk_single]
    exact List.head?_append_of_ne_nil _ hne
  | cons x xs =>
    rw [sealChunk_pair]
    exact List.head?_append_of_ne_nil _ hne

theorem sealChunk_getLast : ∀ {g : List Str}, g ≠ [] → (sealChunk g).getLast? = some '.' := by
  intro g
  induction g with
  | nil => intro h; exact absurd rfl h
  | cons s rest ih =>
    intro _
    cases rest with
    | nil =>
      rw [sealChunk_single]
      exact List.getLast?_concat s
    | cons x xs =>
      rw [sealChunk_pair]
      have h2 : s ++ '.' :: ' ' :: sealChunk (x :: xs) = (s ++ ['.', ' ']) ++ sealChunk (x :: xs) := by
        simp
      rw [h2, List.getLast?_append_of_ne_nil _ (sealChunk_ne_nil (List.cons_ne_nil x xs))]
      exact ih (List.cons_ne_nil x xs)

theorem mem_sealChunk : ∀ {g : List Str} {c : Char}, c ∈ sealChunk g →
    (∃ s ∈ g, c ∈ s) ∨ c = '.' ∨ c = ' ' := by
  intro g
  induction g with
  | nil => intro c hc; simp [sealChunk] at hc
  | cons s rest ih =>
    intro c hc
    cases rest with
    | nil =>
      rw [sealChunk_single] at hc
      rcases List.mem_append.1 hc with h | h
      · exact Or.inl ⟨s, List.mem_cons_self s [], h⟩
      · right; left; simpa using h
    | cons x xs =>
      rw [sealChunk_pair] at hc
      rcases List.mem_append.1 hc with h | h
      · exact Or.inl ⟨s, List.mem_cons_self _ _, h⟩
      · rcases List.mem_cons.1 h with h1 | h1
        · right; left; exact h1
        · rcases List.mem_cons.1 h1 with h2 | h2
          · right; right; exact h2
          · rcases ih h2 with ⟨s', hs', hcs'⟩ | h3
            · exact Or.inl ⟨s', List.mem_cons.2 (Or.inr hs'), hcs'⟩
            · exact Or.inr h3

/-- Master structural lemma about the chunk-accumulation loop: every
chunk it emits is a sealed group of clean sentences, and is either
within `maxSize + 1` characters or is a single oversized sentence plus
its appended period. -/
theorem cleanLoop_chunks (m : Nat) :
    ∀ (sents : List Str) (g : List Str),
      (∀ s ∈ sents, Clean s) → (∀ s ∈ g, Clean s) →
      ((glue g).length ≤ m + 2 ∨ ∃ s0, g = [s0] ∧ m < s0.length) →
      ∀ c ∈ cleanLoop m sents (glue g),
        (∃ g', g' ≠ [] ∧ (∀ s ∈ g', Clean s) ∧ c = sealChunk g') ∧
        (c.length ≤ m + 1 ∨ ∃ s ∈ g ++ sents, c = s ++ ['.'] ∧ m < s.length) := by
  intro sents
  induction sents with
  | nil =>
    intro g hs hg hinv c hc
    rw [cleanLoop] at hc
    by_cases hgl : glue g = []
    · rw [if_pos hgl] at hc
      simp at hc
    · rw [if_neg hgl] at hc
      have hgne : g ≠ [] := fun h => hgl (by rw [h]; rfl)
      rw [List.mem_singleton] at hc
      have hcg : c = sealChunk g := by rw [hc, strip_glue hg hgne]
      refine ⟨⟨g, hgne, hg, hcg⟩, ?_⟩
      rcases hinv with hlen | ⟨s0, hg0, hs0⟩
      · left
        have hsl := sealChunk_length hgne
        rw [hcg]
        omega
      · right
        refine ⟨s0, by simp [hg0], ?_, hs0⟩
        rw [hcg, hg0, sealChunk_single]
  | cons s rest ih =>
    intro g hs hg hinv c hc
    have hsclean : Clean s := hs s (List.mem_cons_self s rest)
    have hrest : ∀ x ∈ rest, Clean x := fun x hx => hs x (List.mem_cons.2 (Or.inr hx))
    rw [cleanLoop] at hc
    by_cases hfit : (glue g ++ s).length ≤ m
    · rw [if_pos hfit] at hc
      have hglue : glue g ++ s ++ ['.', ' '] = glue (g ++ [s]) := (glue_append_singleton g s).symm
      rw [hglue] at hc
      have hg' : ∀ x ∈ g ++ [s], Clean x := by
        intro x hx
        rcases List.mem_append.1 hx with h | h
        · exact hg x h
        · rw [List.mem_singleton] at h
          rw [h]
          exact hsclean
      have hinv' : (glue (g ++ [s])).length ≤ m + 2 ∨
          ∃ s0, g ++ [s] = [s0] ∧ m < s0.length := by
        left
        rw [← hglue]
        rw [List.length_append] at hfit ⊢
        simp only [List.length_append, List.length_cons, List.length_nil]
        omega
      obtain ⟨hshape, hsize⟩ := ih (g ++ [s]) hrest hg' hinv' c hc
      refine ⟨hshape, ?_⟩
      rwa [List.append_assoc, List.singleton_append] at hsize
    · rw [if_neg hfit] at hc
      by_cases hgnil : glue g = []
      · rw [if_pos hgnil, List.nil_append] at hc
        have hgs : s ++ ['.', ' '] = glue [s] := rfl
        rw [hgs] at hc
        have hone : ∀ x ∈ [s], Clean x := by
          intro x hx
          rw [List.mem_singleton] at hx
          rw [hx]
          exact hsclean
        have hinv1 : (glue [s]).length ≤ m + 2 ∨ ∃ s0, [s] = [s0] ∧ m < s0.length := by
          by_cases hsl : s.length ≤ m
          · left
            rw [glue_singleton]
            simp only [List.length_append, List.length_cons, List.length_nil]
            omega
          · right
            exact ⟨s, rfl, by omega⟩
        obtain ⟨hshape, hsize⟩ := ih [s] hrest hone hinv1 c hc
        have hgn : g = [] := glue_eq_nil.1 hgnil
        refine ⟨hshape, ?_⟩
        rw [hgn, List.nil_append]
        rwa [List.singleton_append] at hsize
      · rw [if_neg hgnil] at hc
        have hgne : g ≠ [] := fun h => hgnil (by rw [h]; rfl)
        rcases List.mem_append.1 hc with hseal | hrec
        · rw [List.mem_singleton] at hseal
          have hcg : c = sealChunk g := by rw [hseal, strip_glue hg hgne]
          refine ⟨⟨g, hgne, hg, hcg⟩, ?_⟩
          rcases hinv with hlen | ⟨s0, hg0, hs0⟩
          · left
            have hsl := sealChunk_length hgne
            rw [hcg]
            omega
          · right
            refine ⟨s0, ?_, ?_, hs0⟩
            · rw [hg0]
              exact List.mem_append_left _ (List.mem_cons_self _ _)
            · rw [hcg, hg0, sealChunk_single]
        · have hgs : s ++ ['.', ' '] = glue [s] := rfl
          rw [hgs] at hrec
          have hone : ∀ x ∈ [s], Clean x := by
            intro x hx
            rw [List.mem_singleton] at hx
            rw [hx]
            exact hsclean
          have hinv1 : (glue [s]).length ≤ m + 2 ∨ ∃ s0, [s] = [s0] ∧ m < s0.length := by
            by_cases hsl : s.length ≤ m
            · left
              rw [glue_singleton]
              simp only [List.length_append, List.length_cons, List.length_nil]
              omega
            · right
              exact ⟨s, rfl, by omega⟩
          obtain ⟨hshape, hsize⟩ := ih [s] hrest hone hinv1 c hrec
          refine ⟨hshape, ?_⟩
          rcases hsize with h | ⟨s', hs', heq, hlt⟩
          · left; exact h
          · right
            refine ⟨s', ?_, heq, hlt⟩
            rw [List.singleton_append] at hs'
            exact List.mem_append_right _ hs'

theorem reSplitTerm_cons_nonTerm {c : Char} (hc : isTerm c = false) (x : Str) :
    reSplitTerm (c :: x) = consHead c (reSplitTerm x) := by
  unfold reSplitTerm
  rw [splitTermAux, hc]
  simp

theorem sentences_nil : sentences [] = [] := rfl

theorem cleanList_consHead_space {L : List Str} (hL : L ≠ []) :
    cleanList (consHead ' ' L) = cleanList L := by
  cases L with
  | nil => exact absurd rfl hL
  | cons h r =>
    show cleanList ((' ' :: h) :: r) = cleanList (h :: r)
    rw [cleanList_cons, cleanList_cons, strip_cons_space (by decide)]

theorem sentences_cons_space (x : Str) : sentences (' ' :: x) = sentences x := by
  unfold sentences
  rw [reSplitTerm_cons_nonTerm (by decide)]
  exact cleanList_consHead_space (splitTermAux_ne_nil false x)

theorem sentences_append_dot {s : Str} (t : Str) (hcl : Clean s)
    (ht : ∀ c, t.head? = some c → isTerm c = false) :
    sentences (s ++ '.' :: t) = s :: sentences t := by
  unfold sentences
  rw [show reSplitTerm (s ++ '.' :: t) = splitTermAux false (s ++ '.' :: t) from rfl,
    splitTermAux_append_dot t hcl.2.2.2 ht,
    show splitTermAux false t = reSplitTerm t from rfl,
    cleanList_cons, strip_eq_self hcl.2.1 hcl.2.2.1, if_neg hcl.1]

theorem sentences_sealChunk_append :
    ∀ {g : List Str}, (∀ s ∈ g, Clean s) → g ≠ [] →
      ∀ {t : Str}, (∀ c, t.head? = some c → isTerm c = false) →
      sentences (sealChunk g ++ t) = g ++ sentences t := by
  intro g
  induction g with
  | nil => intro _ h; exact absurd rfl h
  | cons s rest ih =>
    intro hg _ t ht
    have hscl : Clean s := hg s (List.mem_cons_self s rest)
    cases rest with
    | nil =>
      rw [sealChunk_single, List.append_assoc, List.singleton_append,
        sentences_append_dot t hscl ht, List.singleton_append]
    | cons x xs =>
      rw [sealChunk_pair]
      have hassoc : (s ++ '.' :: ' ' :: sealChunk (x :: xs)) ++ t =
          s ++ '.' :: ' ' :: (sealChunk (x :: xs) ++ t) := by
        simp
      rw [hassoc,
        sentences_append_dot (' ' :: (sealChunk (x :: xs) ++ t)) hscl
          (by intro c hc; simp at hc; rw [← hc]; decide),
        sentences_cons_space,
        ih (fun y hy => hg y (List.mem_cons.2 (Or.inr hy))) (List.cons_ne_nil x xs) ht]
      simp

theorem sealChunk_head_nonTerm {g : List Str} (hg : ∀ s ∈ g, Clean s) (hne : g ≠ []) :
    ∀ c, (sealChunk g).head? = some c → isTerm c = false := by
  intro c hc
  cases g with
  | nil => exact absurd rfl hne
  | cons s rest =>
    have hscl := hg s (List.mem_cons_self s rest)
    rw [sealChunk_head? hscl.1] at hc
    exact hscl.2.2.2 c (List.mem_of_mem_head? hc)

theorem join_head_nonTerm {C : List Str}
    (hC : ∀ c0 ∈ C, ∃ g', g' ≠ [] ∧ (∀ s ∈ g', Clean s) ∧ c0 = sealChunk g') :
    ∀ c, C.flatten.head? = some c → isTerm c = false := by
  intro c hc
  cases C with
  | nil => simp at hc
  | cons c0 C' =>
    obtain ⟨g', hg'ne, hg'cl, hc0⟩ := hC c0 (List.mem_cons_self c0 C')
    have hc0ne : c0 ≠ [] := hc0 ▸ sealChunk_ne_nil hg'ne
    rw [List.flatten_cons, List.head?_append_of_ne_nil _ hc0ne] at hc
    exact sealChunk_head_nonTerm hg'cl hg'ne c (hc0 ▸ hc)

/-- The chunk loop loses, duplicates and reorders no sentence:
re-extracting the sentences of the concatenated chunk output gives
back the pending group followed by the remaining input sentences. -/
theorem cleanLoop_reconstruct (m : Nat) :
    ∀ (sents g : List Str), (∀ s ∈ sents, Clean s) → (∀ s ∈ g, Clean s) →
      sentences ((cleanLoop m sents (glue g)).flatten) = g ++ sents := by
  intro sents
  induction sents with
  | nil =>
    intro g hs hg
    rw [cleanLoop]
    by_cases hgl : glue g = []
    · rw [if_pos hgl]
      rw [glue_eq_nil.1 hgl]
      exact sentences_nil
    · rw [if_neg hgl]
      have hgne : g ≠ [] := fun h => hgl (by rw [h]; rfl)
      rw [strip_glue hg hgne]
      have : List.flatten [sealChunk g] = sealChunk g ++ [] := by simp
      rw [this, sentences_sealChunk_append hg hgne (by intro c hc; simp at hc),
        sentences_nil]
  | cons s rest ih =>
    intro g hs hg
    have hsclean : Clean s := hs s (List.mem_cons_self s rest)
    have hrest : ∀ x ∈ rest, Clean x := fun x hx => hs x (List.mem_cons.2 (Or.inr hx))
    have hone : ∀ x ∈ [s], Clean x := by
      intro x hx
      rw [List.mem_singleton] at hx
      rw [hx]
      exact hsclean
    rw [cleanLoop]
    by_cases hfit : (glue g ++ s).length ≤ m
    · rw [if_pos hfit]
      have hglue : glue g ++ s ++ ['.', ' '] = glue (g ++ [s]) := (glue_append_singleton g s).symm
      rw [hglue]
      have hg' : ∀ x ∈ g ++ [s], Clean x := by
        intro x hx
        rcases List.mem_append.1 hx with h | h
        · exact hg x h
        · rw [List.mem_singleton] at h
          rw [h]
          exact hsclean
      rw [ih (g ++ [s]) hrest hg', List.append_assoc, List.singleton_append]
    · rw [if_neg hfit]
      have hgs : s ++ ['.', ' '] = glue [s] := rfl
      by_cases hgnil : glue g = []
      · rw [if_pos hgnil, List.nil_append, hgs, ih [s] hrest hone,
          glue_eq_nil.1 hgnil, List.singleton_append, List.nil_append]
      · rw [if_neg hgnil]
        have hgne : g ≠ [] := fun h => hgnil (by rw [h]; rfl)
        rw [strip_glue hg hgne, hgs]
        have hinv1 : (glue [s]).length ≤ m + 2 ∨ ∃ s0, [s] = [s0] ∧ m < s0.length := by
          by_cases hsl : s.length ≤ m
          · left
            rw [glue_singleton]
            simp only [List.length_append, List.length_cons, List.length_nil]
            omega
          · right
            exact ⟨s, rfl, by omega⟩
        have hshapes : ∀ c0 ∈ cleanLoop m rest (glue [s]),
            ∃ g', g' ≠ [] ∧ (∀ x ∈ g', Clean x) ∧ c0 = sealChunk g' := by
          intro c0 hc0
          exact (cleanLoop_chunks m rest [s] hrest hone hinv1 c0 hc0).1
        rw [List.singleton_append, List.flatten_cons,
          sentences_sealChunk_append hg hgne (join_head_nonTerm hshapes),
          ih [s] hrest hone, List.singleton_append]

theorem create_chunks_eq (tc : TextContent) (sz : Nat) :
    create_chunks tc sz =
      cleanLoop (adjustChunkSize tc.metadata sz) (sentences tc.full_text) [] := by
  unfold create_chunks
  rw [chunkLoop_eq_cleanLoop]
  rfl

/-- Claim C1, amended: every chunk produced by `create_chunks` has
length at most the effective maximum chunk size plus one (the appended
final period), except a chunk consisting of exactly one sentence plus
its appended period where the sentence itself is longer than the
maximum.  (The claim's original bound `≤ max` fails: the length check
ignores the `". "` the loop appends, so a sealed chunk can reach
`max + 1` characters.) -/
theorem chunk_size_bound_amended :
    ∀ (tc : TextContent) (sz : Nat), ∀ c ∈ create_chunks tc sz,
      c.length ≤ adjustChunkSize tc.metadata sz + 1 ∨
      ∃ s ∈ sentences tc.full_text, c = s ++ ['.'] ∧ adjustChunkSize tc.metadata sz < s.length := by
  intro tc sz c hc
  rw [create_chunks_eq] at hc
  have h := (cleanLoop_chunks (adjustChunkSize tc.metadata sz) (sentences tc.full_text) []
    (fun s hs => sentences_clean s hs) (by intro s hs; simp at hs)
    (Or.inl (by simp [glue])) c hc).2
  simpa using h

/-- Witness for `chunk_size_bound_amended` at a concrete input: the
text "abcd" with maximum 4 produces the single chunk "abcd.". -/
theorem chunk_size_bound_amended_witness :
    (['a', 'b', 'c', 'd', '.'] : Str).length ≤ adjustChunkSize ⟨"X", 0⟩ 4 + 1 ∨
      ∃ s ∈ sentences ['a', 'b', 'c', 'd'],
        (['a', 'b', 'c', 'd', '.'] : Str) = s ++ ['.'] ∧
          adjustChunkSize ⟨"X", 0⟩ 4 < s.length :=
  chunk_size_bound_amended ⟨['a', 'b', 'c', 'd'], ⟨"X", 0⟩⟩ 4
    ['a', 'b', 'c', 'd', '.'] (by decide)

/-- Claim C1 as stated is false on the code: with configured maximum 4
the text "abcd" is a single sentence of length 4 (not oversized), yet
the produced chunk "abcd." has length 5 > 4, and no reading of the
single-oversized-sentence exception applies. -/
theorem chunk_size_claim_counterexample :
    ¬ (∀ c ∈ create_chunks ⟨['a', 'b', 'c', 'd'], ⟨"X", 0⟩⟩ 4, c.length ≤ 4 ∨
        ∃ s ∈ sentences ['a', 'b', 'c', 'd'], (c = s ∨ c = s ++ ['.']) ∧ 4 < s.length) := by
  decide

/-- Claim C3: concatenating the chunk output and re-extracting the
sentence sequence (which discards the inserted period-and-space
separators) returns exactly the input text's sentence sequence — no
sentence dropped, duplicated or reordered — and the empty text yields
an empty chunk sequence. -/
theorem chunks_reconstruct_sentences :
    ∀ (tc : TextContent) (sz : Nat),
      sentences ((create_chunks tc sz).flatten) = sentences tc.full_text ∧
      ∀ (md : Metadata) (sz2 : Nat), create_chunks ⟨[], md⟩ sz2 = [] := by
  intro tc sz
  constructor
  · rw [create_chunks_eq]
    have h := cleanLoop_reconstruct (adjustChunkSize tc.metadata sz) (sentences tc.full_text) []
      (fun s hs => sentences_clean s hs) (by intro s hs; simp at hs)
    simpa using h
  · intro md sz2
    rfl

/-- Claim C9: every chunk returned by `create_chunks` is a non-empty
string whose last character is a period, and its only
sentence-terminal characters are the uniformly appended periods —
never '!' or '?', whatever terminator the sentence originally had. -/
theorem chunks_end_with_period :
    ∀ (tc : TextContent) (sz : Nat), ∀ c ∈ create_chunks tc sz,
      c ≠ [] ∧ c.getLast? = some '.' ∧ ∀ ch ∈ c, isTerm ch = true → ch = '.' := by
  intro tc sz c hc
  rw [create_chunks_eq] at hc
  obtain ⟨⟨g', hg'ne, hg'cl, hcg⟩, _⟩ :=
    cleanLoop_chunks (adjustChunkSize tc.metadata sz) (sentences tc.full_text) []
      (fun s hs => sentences_clean s hs) (by intro s hs; simp at hs)
      (Or.inl (by simp [glue])) c hc
  subst hcg
  refine ⟨sealChunk_ne_nil hg'ne, sealChunk_getLast hg'ne, ?_⟩
  intro ch hch hterm
  rcases mem_sealChunk hch with ⟨s, hs, hchs⟩ | h | h
  · rw [(hg'cl s hs).2.2.2 ch hchs] at hterm
    contradiction
  · exact h
  · rw [h] at hterm
    exact absurd hterm (by decide)

/-- Witness for `chunks_end_with_period` at a concrete input: the text
"ab! c?" produces the single chunk "ab. c." with uniform periods. -/
theorem chunks_end_with_period_witness :
    (['a', 'b', '.', ' ', 'c', '.'] : Str) ≠ [] ∧
      (['a', 'b', '.', ' ', 'c', '.'] : Str).getLast? = some '.' ∧
      ∀ ch ∈ (['a', 'b', '.', ' ', 'c', '.'] : Str), isTerm ch = true → ch = '.' :=
  chunks_end_with_period ⟨['a', 'b', '!', ' ', 'c', '?'], ⟨"X", 0⟩⟩ 4000
    ['a', 'b', '.', ' ', 'c', '.'] (by decide)

/-- Claim C6: the chunker's maximum size defaults to 4000 characters
and the page-count rule — PDF metadata with more than 100 pages gives
6000, more than 50 gives 5000 — is applied before chunking begins and
is the only adaptive sizing rule (non-PDF metadata, whose records
carry no page count in the source, never changes the size). -/
theorem chunk_size_adaptation :
    (∀ tc : TextContent, create_chunks tc = create_chunks tc 4000) ∧
    (∀ (md : Metadata) (sz : Nat), md.document_type = "PDF" → 100 < md.total_pages →
      adjustChunkSize md sz = 6000) ∧
    (∀ (md : Metadata) (sz : Nat), md.document_type = "PDF" → 50 < md.total_pages →
      md.total_pages ≤ 100 → adjustChunkSize md sz = 5000) ∧
    (∀ (md : Metadata) (sz : Nat), md.document_type = "PDF" → md.total_pages ≤ 50 →
      adjustChunkSize md sz = sz) ∧
    (∀ (md : Metadata) (sz : Nat), md.document_type ≠ "PDF" → adjustChunkSize md sz = sz) ∧
    (∀ (tc : TextContent) (sz : Nat),
      create_chunks tc sz =
        chunkLoop (adjustChunkSize tc.metadata sz) (reSplitTerm tc.full_text) []) := by
  refine ⟨fun tc => rfl, ?_, ?_, ?_, ?_, fun tc sz => rfl⟩
  · intro md sz h1 h2
    unfold adjustChunkSize
    rw [if_pos h1, if_pos (by omega)]
  · intro md sz h1 h2 h3
    unfold adjustChunkSize
    rw [if_pos h1, if_neg (by omega), if_pos (by omega)]
  · intro md sz h1 h2
    unfold adjustChunkSize
    rw [if_pos h1, if_neg (by omega), if_neg (by omega)]
  · intro md sz h1
    unfold adjustChunkSize
    rw [if_neg h1]

/-- Witness for `chunk_size_adaptation` at concrete metadata. -/
theorem chunk_size_adaptation_witness :
    adjustChunkSize ⟨"PDF", 120⟩ 4000 = 6000 ∧
      adjustChunkSize ⟨"PDF", 60⟩ 4000 = 5000 ∧
      adjustChunkSize ⟨"PDF", 10⟩ 4000 = 4000 ∧
      adjustChunkSize ⟨"Word Document", 200⟩ 4000 = 4000 :=
  ⟨chunk_size_adaptation.2.1 ⟨"PDF", 120⟩ 4000 rfl (by decide),
   chunk_size_adaptation.2.2.1 ⟨"PDF", 60⟩ 4000 rfl (by decide) (by decide),
   chunk_size_adaptation.2.2.2.1 ⟨"PDF", 10⟩ 4000 rfl (by decide),
   chunk_size_adaptation.2.2.2.2.1 ⟨"Word Document", 200⟩ 4000 (by decide)⟩

/-- Lower-case a text character by character (model of Python
`str.lower` on the texts involved). -/
def toLowerStr (s : Str) : Str := s.map Char.toLower

/-- `needle` starts `haystack`. -/
def isPrefixOfB : Str → Str → Bool
  | [], _ => true
  | _ :: _, [] => false
  | a :: as, b :: bs => a = b && isPrefixOfB as bs

/-- Python's `needle in haystack` substring test. -/
def containsB : Str → Str → Bool
  | [], needle => needle.isEmpty
  | c :: t, needle => isPrefixOfB needle (c :: t) || containsB t needle

/-- Worker for `pySplit`; the flag records whether a word is open at
the head of the result. -/
def pySplitAux : Bool → Str → List Str
  | false, [] => []
  | true, [] => [[]]
  | false, c :: cs =>
    if isSpace c then pySplitAux false cs else consHead c (pySplitAux true cs)
  | true, c :: cs =>
    if isSpace c then [] :: pySplitAux false cs else consHead c (pySplitAux true cs)

/-- Python `str.split()` with no separator: split at whitespace runs,
dropping empty tokens. -/
def pySplit (s : Str) : List Str := pySplitAux false s

/-- A chunk record held by the chatbot session
(`text`, `document`, `chunk_id`, `doc_type`). -/
structure ChunkInfo where
  text : Str
  document : String
  chunk_id : Nat
  doc_type : String
deriving DecidableEq

/-- A chunk together with the `similarity` score the search attached
to its copy. -/
structure ScoredChunk where
  chunk : ChunkInfo
  similarity : ℚ
deriving DecidableEq

/-- `sum(word in text_lower for word in query_words)` of
`DocumentChatbot._keyword_search`: the number of query-word tokens
occurring as substrings of the chunk's lower-cased text. -/
def scoreChunk (query_words : List Str) (ch : ChunkInfo) : Nat :=
  (query_words.filter (fun w => containsB (toLowerStr ch.text) w)).length

/-- The scored-chunk list built by the loop of `_keyword_search`:
chunks with positive score, in original order, with
`similarity = score / len(query_words)`. -/
def scoredOf (chunks : List ChunkInfo) (query_words : List Str) : List ScoredChunk :=
  chunks.filterMap (fun ch =>
    if 0 < scoreChunk query_words ch then
      some ⟨ch, (scoreChunk query_words ch : ℚ) / (query_words.length : ℚ)⟩
    else none)

/-- Insert into a descending-sorted list, after all strictly greater
elements and before equal ones (so that, folding from the right, the
earlier element of a tie stays first — Python's stable
`sort(reverse=True)`). -/
def insertDescSim (x : ScoredChunk) : List ScoredChunk → List ScoredChunk
  | [] => [x]
  | y :: ys =>
    if x.similarity < y.similarity then y :: insertDescSim x ys else x :: y :: ys

/-- Stable sort by similarity descending, Python
`list.sort(key=..., reverse=True)`. -/
def sortDescBySim (l : List ScoredChunk) : List ScoredChunk := l.foldr insertDescSim []

/-- `DocumentChatbot._keyword_search`: lower-case and
whitespace-split the query, score every chunk, keep positive scores,
sort by score descending (stable) and return the first `top_k`. -/
def keyword_search (chunks : List ChunkInfo) (query : Str) (top_k : Nat := 5) :
    List ScoredChunk :=
  (sortDescBySim (scoredOf chunks (pySplit (toLowerStr query)))).take top_k

/-- Result order relation of the descending sort. -/
def SimGE (a b : ScoredChunk) : Prop := b.similarity ≤ a.similarity

/-- The per-similarity-class restriction used to state sort stability. -/
def filterV (v : ℚ) (l : List ScoredChunk) : List ScoredChunk :=
  l.filter (fun r => decide (r.similarity = v))

theorem filterV_cons (v : ℚ) (a : ScoredChunk) (l : List ScoredChunk) :
    filterV v (a :: l) = if a.similarity = v then a :: filterV v l else filterV v l := by
  unfold filterV
  rw [List.filter_cons]
  by_cases h : a.similarity = v
  · simp [h]
  · simp [h]

theorem mem_insertDescSim {x a : ScoredChunk} :
    ∀ {l : List ScoredChunk}, a ∈ insertDescSim x l ↔ a = x ∨ a ∈ l := by
  intro l
  induction l with
  | nil => simp [insertDescSim]
  | cons y ys ih =>
    rw [insertDescSim]
    by_cases hlt : x.similarity < y.similarity
    · rw [if_pos hlt]
      simp only [List.mem_cons, ih]
      exact or_left_comm
    · rw [if_neg hlt]
      simp only [List.mem_cons]

theorem insertDescSim_perm (x : ScoredChunk) :
    ∀ l : List ScoredChunk, (insertDescSim x l).Perm (x :: l) := by
  intro l
  induction l with
  | nil => exact List.Perm.refl _
  | cons y ys ih =>
    rw [insertDescSim]
    by_cases hlt : x.similarity < y.similarity
    · rw [if_pos hlt]
      exact List.Perm.trans (List.Perm.cons y ih) (List.Perm.swap x y ys)
    · rw [if_neg hlt]

theorem sortDescBySim_perm : ∀ l : List ScoredChunk, (sortDescBySim l).Perm l := by
  intro l
  induction l with
  | nil => exact List.Perm.refl _
  | cons x xs ih =>
    have h1 : sortDescBySim (x :: xs) = insertDescSim x (sortDescBySim xs) := rfl
    rw [h1]
    exact List.Perm.trans (insertDescSim_perm x (sortDescBySim xs)) (List.Perm.cons x ih)

theorem pairwise_insertDescSim {x : ScoredChunk} :
    ∀ {l : List ScoredChunk}, l.Pairwise SimGE → (insertDescSim x l).Pairwise SimGE := by
  intro l
  induction l with
  | nil => intro _; simp [insertDescSim, List.pairwise_cons]
  | cons y ys ih =>
    intro h
    obtain ⟨hy, hys⟩ := List.pairwise_cons.1 h
    rw [insertDescSim]
    by_cases hlt : x.similarity < y.similarity
    · rw [if_pos hlt]
      refine List.pairwise_cons.2 ⟨?_, ih hys⟩
      intro a ha
      rcases mem_insertDescSim.1 ha with rfl | ha'
      · exact le_of_lt hlt
      · exact hy a ha'
    · rw [if_neg hlt]
      refine List.pairwise_cons.2 ⟨?_, h⟩
      intro a ha
      rcases List.mem_cons.1 ha with rfl | ha'
      · exact not_lt.1 hlt
      · exact le_trans (hy a ha') (not_lt.1 hlt)

theorem sortDescBySim_sorted : ∀ l : List ScoredChunk, (sortDescBySim l).Pairwise SimGE := by
  intro l
  induction l with
  | nil => simp [sortDescBySim]
  | cons x xs ih => exact pairwise_insertDescSim ih

theorem filterV_insertDescSim (v : ℚ) (x : ScoredChunk) :
    ∀ l : List ScoredChunk, filterV v (insertDescSim x l) = filterV v (x :: l) := by
  intro l
  induction l with
  | nil => rfl
  | cons y ys ih =>
    rw [insertDescSim]
    by_cases hlt : x.similarity < y.similarity
    · rw [if_pos hlt]
      by_cases hy : y.similarity = v
      · have hx : x.similarity ≠ v := by
          intro h
          rw [h, hy] at hlt
          exact lt_irrefl v hlt
        rw [filterV_cons, if_pos hy, ih, filterV_cons, if_neg hx,
          filterV_cons, if_neg hx, filterV_cons, if_pos hy]
      · rw [filterV_cons, if_neg hy, ih, filterV_cons, filterV_cons]
        by_cases hx : x.similarity = v
        · rw [if_pos hx, if_pos hx, filterV_cons, if_neg hy]
        · rw [if_neg hx, if_neg hx, filterV_cons, if_neg hy]
    · rw [if_neg hlt]

theorem sortDescBySim_stable (v : ℚ) :
    ∀ l : List ScoredChunk, filterV v (sortDescBySim l) = filterV v l := by
  intro l
  induction l with
  | nil => rfl
  | cons x xs ih =>
    have h1 : sortDescBySim (x :: xs) = insertDescSim x (sortDescBySim xs) := rfl
    rw [h1, filterV_insertDescSim, filterV_cons, filterV_cons, ih]

theorem scoreChunk_le (qw : List Str) (ch : ChunkInfo) : scoreChunk qw ch ≤ qw.length :=
  List.length_filter_le _ _

theorem mem_scoredOf {chunks : List ChunkInfo} {qw : List Str} {r : ScoredChunk}
    (hr : r ∈ scoredOf chunks qw) :
    r.chunk ∈ chunks ∧ 0 < scoreChunk qw r.chunk ∧
      r.similarity = (scoreChunk qw r.chunk : ℚ) / (qw.length : ℚ) := by
  obtain ⟨ch, hch, hfr⟩ := List.mem_filterMap.1 hr
  by_cases hpos : 0 < scoreChunk qw ch
  · rw [if_pos hpos] at hfr
    cases Option.some.inj hfr
    exact ⟨hch, hpos, rfl⟩
  · rw [if_neg hpos] at hfr
    exact Option.noConfusion hfr

theorem scoredOf_sim_le_one {chunks : List ChunkInfo} {qw : List Str} (hqw : qw ≠ []) :
    ∀ r ∈ scoredOf chunks qw, r.similarity ≤ 1 := by
  intro r hr
  obtain ⟨_, _, hsim⟩ := mem_scoredOf hr
  rw [hsim, div_le_one (Nat.cast_pos.2 (List.length_pos.2 hqw))]
  exact Nat.cast_le.2 (scoreChunk_le qw r.chunk)

/-- Claim C4: the keyword fallback scores each chunk as the fraction
of lower-cased whitespace-split query-word tokens occurring as
substrings of the chunk's lower-cased text, keeps only positive
scores, returns at most `top_k` results sorted by score descending
with ties in original chunk order (stable sort), and a query all of
whose words occur in exactly one chunk returns that chunk first with
score 1. -/
theorem keyword_search_spec :
    ∀ (chunks : List ChunkInfo) (q : Str) (k : Nat),
      (keyword_search chunks q k).length ≤ k ∧
      keyword_search chunks q k =
        (sortDescBySim (scoredOf chunks (pySplit (toLowerStr q)))).take k ∧
      (∀ r ∈ keyword_search chunks q k,
        r.chunk ∈ chunks ∧ 0 < scoreChunk (pySplit (toLowerStr q)) r.chunk ∧
          r.similarity = (scoreChunk (pySplit (toLowerStr q)) r.chunk : ℚ) /
            ((pySplit (toLowerStr q)).length : ℚ)) ∧
      (keyword_search chunks q k).Pairwise SimGE ∧
      (∀ v : ℚ, filterV v (sortDescBySim (scoredOf chunks (pySplit (toLowerStr q)))) =
        filterV v (scoredOf chunks (pySplit (toLowerStr q)))) ∧
      (∀ c : ChunkInfo, 0 < k → c ∈ chunks → pySplit (toLowerStr q) ≠ [] →
        (∀ w ∈ pySplit (toLowerStr q), containsB (toLowerStr c.text) w = true) →
        (∀ c' ∈ chunks, c' ≠ c →
          ∃ w ∈ pySplit (toLowerStr q), containsB (toLowerStr c'.text) w = false) →
        (keyword_search chunks q k).head? = some ⟨c, 1⟩) := by
  intro chunks q k
  set qw := pySplit (toLowerStr q) with hqwdef
  refine ⟨?_, rfl, ?_, ?_, fun v => sortDescBySim_stable v _, ?_⟩
  · rw [keyword_search, List.length_take]
    exact min_le_left _ _
  · intro r hr
    have hr2 : r ∈ scoredOf chunks qw :=
      ((sortDescBySim_perm _).mem_iff).1 (List.take_subset k _ hr)
    exact mem_scoredOf hr2
  · exact (sortDescBySim_sorted _).sublist (List.take_sublist k _)
  · intro c hk hc hqw hall huniq
    have hn : 0 < qw.length := List.length_pos.2 hqw
    have hden : ((qw.length : ℚ)) ≠ 0 := Nat.cast_ne_zero.2 (by omega)
    have hscore_c : scoreChunk qw c = qw.length := by
      unfold scoreChunk
      rw [List.filter_eq_self.2 (fun w hw => hall w hw)]
    have hsim_c : ((scoreChunk qw c : ℚ) / (qw.length : ℚ)) = 1 := by
      rw [hscore_c]
      exact div_self hden
    have hmem_c : (⟨c, 1⟩ : ScoredChunk) ∈ scoredOf chunks qw := by
      apply List.mem_filterMap.2
      refine ⟨c, hc, ?_⟩
      rw [if_pos (by rw [hscore_c]; exact hn), hsim_c]
    have huniq_c : ∀ r ∈ scoredOf chunks qw, r.similarity = 1 → r = ⟨c, 1⟩ := by
      intro r hr h1
      obtain ⟨hch, hpos, hsim⟩ := mem_scoredOf hr
      have h2 := h1
      rw [hsim, div_eq_one_iff_eq hden] at h2
      have hscore : scoreChunk qw r.chunk = qw.length := Nat.cast_inj.1 h2
      have hallw : ∀ w ∈ qw, containsB (toLowerStr r.chunk.text) w = true := by
        have hfeq : qw.filter (fun w => containsB (toLowerStr r.chunk.text) w) = qw :=
          (List.filter_sublist _).eq_of_length hscore
        exact List.filter_eq_self.1 hfeq
      have hcc : r.chunk = c := by
        by_contra hne
        obtain ⟨w, hw, hwf⟩ := huniq r.chunk hch hne
        rw [hallw w hw] at hwf
        simp at hwf
      obtain ⟨ch0, sim0⟩ := r
      simp only at hcc h1
      rw [hcc, h1]
    have hperm := sortDescBySim_perm (scoredOf chunks qw)
    have hsorted := sortDescBySim_sorted (scoredOf chunks qw)
    have hmemL : (⟨c, 1⟩ : ScoredChunk) ∈ sortDescBySim (scoredOf chunks qw) :=
      hperm.mem_iff.2 hmem_c
    rw [keyword_search]
    cases hL : sortDescBySim (scoredOf chunks qw) with
    | nil =>
      rw [hL] at hmemL
      simp at hmemL
    | cons r0 L' =>
      have hr0mem : r0 ∈ scoredOf chunks qw :=
        hperm.mem_iff.1 (hL ▸ List.mem_cons_self r0 L')
      have hge : (1 : ℚ) ≤ r0.similarity := by
        rw [hL] at hmemL hsorted
        rcases List.mem_cons.1 hmemL with heq | hmem'
        · rw [← heq]
        · exact (List.pairwise_cons.1 hsorted).1 _ hmem'
      have hr0sim : r0.similarity = 1 :=
        le_antisymm (scoredOf_sim_le_one hqw r0 hr0mem) hge
      have hr0 : r0 = ⟨c, 1⟩ := huniq_c r0 hr0mem hr0sim
      cases k with
      | zero => exact absurd hk (by omega)
      | succ k' =>
        rw [List.take_succ_cons]
        rw [List.head?_cons, hr0]

/-- Witness chunks for the keyword search claims. -/
def chunkA : ChunkInfo := ⟨['a', 'l', 'p', 'h', 'a', ' ', 'B', 'e', 't', 'a'], "doc1", 0, "PDF"⟩

/-- Second witness chunk for the keyword search claims. -/
def chunkB : ChunkInfo := ⟨['g', 'a', 'm', 'm', 'a'], "doc1", 1, "PDF"⟩

/-- Witness for `keyword_search_spec`: the query "Beta" matches all of
its words only in `chunkA`, which is returned first with score 1. -/
theorem keyword_search_spec_witness :
    (keyword_search [chunkA, chunkB] ['B', 'e', 't', 'a'] 5).head? = some ⟨chunkA, 1⟩ :=
  (keyword_search_spec [chunkA, chunkB] ['B', 'e', 't', 'a'] 5).2.2.2.2.2 chunkA
    (by decide) (by decide) (by decide) (by decide) (by decide)

theorem pySplit_nil_of_spaces : ∀ {s : Str}, (∀ c ∈ s, isSpace c = true) → pySplit s = [] := by
  intro s
  induction s with
  | nil => intro _; rfl
  | cons c cs ih =>
    intro h
    unfold pySplit pySplitAux
    rw [h c (List.mem_cons_self c cs)]
    simp only [if_true]
    exact ih (fun c' hc' => h c' (List.mem_cons.2 (Or.inr hc')))

theorem toLower_space {c : Char} (h : isSpace c = true) : isSpace c.toLower = true := by
  unfold isSpace at h
  simp only [Bool.or_eq_true, decide_eq_true_eq] at h
  rcases h with ((((h | h) | h) | h) | h) | h <;> subst h <;> decide

/-- Claim C10: with a query that has no words (empty or
whitespace-only) the keyword fallback returns the empty list, and the
score-over-word-count division is only reached for chunks with a
positive score, which forces a non-empty query word list. -/
theorem keyword_search_empty_query :
    (∀ (chunks : List ChunkInfo) (q : Str) (k : Nat),
      (∀ c ∈ q, isSpace c = true) → keyword_search chunks q k = []) ∧
    (∀ (chunks : List ChunkInfo) (q : Str) (k : Nat) (r : ScoredChunk),
      r ∈ keyword_search chunks q k → pySplit (toLowerStr q) ≠ []) := by
  constructor
  · intro chunks q k h
    have hq : pySplit (toLowerStr q) = [] := by
      apply pySplit_nil_of_spaces
      intro c hc
      obtain ⟨c', hc', rfl⟩ := List.mem_map.1 hc
      exact toLower_space (h c' hc')
    rw [keyword_search, hq]
    have hsc : scoredOf chunks [] = [] := by
      unfold scoredOf
      rw [List.filterMap_eq_nil_iff]
      intro ch _
      rw [if_neg]
      simp [scoreChunk]
    rw [hsc, show sortDescBySim [] = [] from rfl, List.take_nil]
  · intro chunks q k r hr hnil
    have hr2 : r ∈ scoredOf chunks (pySplit (toLowerStr q)) :=
      ((sortDescBySim_perm _).mem_iff).1 (List.take_subset k _ hr)
    obtain ⟨_, hpos, _⟩ := mem_scoredOf hr2
    rw [hnil] at hpos
    simp [scoreChunk] at hpos

/-- Witness for `keyword_search_empty_query`: a whitespace-only query
over a non-empty chunk list returns no results. -/
theorem keyword_search_empty_query_witness :
    keyword_search [chunkA, chunkB] [' ', '\t'] 5 = [] :=
  keyword_search_empty_query.1 [chunkA, chunkB] [' ', '\t'] 5 (by decide)

/-! ### Analysis orchestrator (`AIAnalyzer`)

Each LLM request-plus-JSON-parse step is an oracle returning the typed
record the prompt asks for; `none` (or `.error msg` where the code
interpolates the exception text into its result) models a transport or
parse failure of that one call.  Per-chunk oracles additionally
receive the 0-based chunk position, since the orchestrator issues one
independent call per chunk. -/

/-- Per-chunk executive-summary record
`{main_points, important_data, conclusions}`. -/
structure ChunkSummary where
  main_points : List String
  important_data : List String
  conclusions : List String
deriving DecidableEq

/-- The consolidation response `{executive_summary, key_findings,
important_metrics, recommendations, main_conclusions}`. -/
structure ConsolidationResponse where
  executive_summary : String
  key_findings : List String
  important_metrics : List String
  recommendations : List String
  main_conclusions : List String
deriving DecidableEq

/-- The consolidated executive-summary result (the response fields
plus the `analysis_type` tag the code adds). -/
structure ConsolidatedSummary where
  analysis_type : String
  executive_summary : String
  key_findings : List String
  important_metrics : List String
  recommendations : List String
  main_conclusions : List String
deriving DecidableEq

/-- Topic-structure response `{main_topics, topic_hierarchy}`. -/
structure TopicsStructure where
  main_topics : List Str
  topic_hierarchy : List (Str × List Str)
deriving DecidableEq

/-- Single-topic analysis response
`{summary, key_points, details, related_data}`. -/
structure TopicResult where
  summary : String
  key_points : List String
  details : List String
  related_data : List String
deriving DecidableEq

/-- Data-extraction record with the seven fixed categories. -/
structure ExtractedRecord where
  dates : List String
  numbers : List String
  percentages : List String
  currencies : List String
  names : List String
  locations : List String
  organizations : List String
deriving DecidableEq

/-- Clause-analysis response
`{clauses_found, key_terms, obligations, important_conditions}`. -/
structure ClauseResponse where
  clauses_found : List String
  key_terms : List String
  obligations : List String
  important_conditions : List String
deriving DecidableEq

/-- A clause record as stored: the response plus the 1-based chunk
position the code writes into the `section` key. -/
structure ClauseRecord where
  clauses_found : List String
  key_terms : List String
  obligations : List String
  important_conditions : List String
  sectionNum : Nat
deriving DecidableEq

/-- One timeline event `{date, event, importance}`. -/
structure TimelineEvent where
  date : Str
  event : String
  importance : String
deriving DecidableEq

/-- The timeline result: the tag plus the sorted event list. -/
structure TimelineResult where
  analysis_type : String
  timeline : List TimelineEvent
deriving DecidableEq

/-- The orchestrator's result value: either an error-tagged record or
the strategy-specific structured result. -/
inductive AnalysisResult where
  | errorResult (msg : String)
  | summary (r : ConsolidatedSummary)
  | topics (ts : TopicsStructure) (analyses : List (Str × TopicResult))
  | extraction (r : ExtractedRecord)
  | clauses (rs : List ClauseRecord)
  | timeline (r : TimelineResult)
  | general (analysis_type : String) (results : String)
deriving DecidableEq

/-- The bundle of LLM call sites of `AIAnalyzer`, one oracle per
prompt shape. -/
structure LLMOracles where
  chunkSummary : Nat → Str → Option ChunkSummary
  consolidation : List String → List String → List String → Option ConsolidationResponse
  topicsStruct : Str → Except String TopicsStructure
  singleTopic : Str → Str → Option TopicResult
  extraction : Nat → Str → Option ExtractedRecord
  clauseQ : Nat → Str → Option ClauseResponse
  timelineQ : Nat → Str → Option (List TimelineEvent)
  generalQ : Str → String → Except String String

/-- Oracles on which every LLM call fails (with exception text `e`
where the code uses it). -/
def failingOracles (e : String) : LLMOracles where
  chunkSummary := fun _ _ => none
  consolidation := fun _ _ _ => none
  topicsStruct := fun _ => .error e
  singleTopic := fun _ _ => none
  extraction := fun _ _ => none
  clauseQ := fun _ _ => none
  timelineQ := fun _ _ => none
  generalQ := fun _ _ => .error e

/-- `AIAnalyzer._consolidate_summaries`: pool all main points, data
and conclusions, ask the consolidation oracle, tag a successful
response; on failure fall back to the first 5 points, first 5 data
items, first 3 conclusions and a placeholder summary. -/
def consolidate_summaries
    (oracle : List String → List String → List String → Option ConsolidationResponse)
    (summaries : List ChunkSummary) : ConsolidatedSummary :=
  let all_points := (summaries.map ChunkSummary.main_points).flatten
  let all_data := (summaries.map ChunkSummary.important_data).flatten
  let all_conclusions := (summaries.map ChunkSummary.conclusions).flatten
  match oracle all_points all_data all_conclusions with
  | some c =>
    ⟨"Resumo Executivo", c.executive_summary, c.key_findings, c.important_metrics,
      c.recommendations, c.main_conclusions⟩
  | none =>
    ⟨"Resumo Executivo", "Resumo não disponível devido a erro de processamento",
      all_points.take 5, all_data.take 5, [], all_conclusions.take 3⟩

/-- `AIAnalyzer._executive_summary`: one summary request per chunk,
substituting the `Resumo do trecho i+1` default on a per-chunk
failure, then one consolidation step. -/
def executive_summary
    (csOracle : List String → List String → List String → Option ConsolidationResponse)
    (chunkOracle : Nat → Str → Option ChunkSummary) (chunks : List Str) :
    ConsolidatedSummary :=
  let summaries := chunks.enum.map (fun ic =>
    match chunkOracle ic.1 ic.2 with
    | some s => s
    | none => ⟨["Resumo do trecho " ++ toString (ic.1 + 1)], [], []⟩)
  consolidate_summaries csOracle summaries

/-- `" ".join(...)` on chunk texts. -/
def joinSpace : List Str → Str
  | [] => []
  | [s] => s
  | s :: rest => s ++ ' ' :: joinSpace rest

/-- `AIAnalyzer._analyze_single_topic`: chunks containing the
lower-cased topic as a substring (or the first two chunks as a
fallback), truncated to 4000 characters; a failing request degrades to
an empty record with a placeholder summary. -/
def analyze_single_topic (tOracle : Str → Str → Option TopicResult)
    (chunks : List Str) (topic : Str) : TopicResult :=
  let relevant := chunks.filter (fun ch => containsB (toLowerStr ch) (toLowerStr topic))
  let relevant := if relevant.isEmpty then chunks.take 2 else relevant
  let combined := (joinSpace relevant).take 4000
  match tOracle topic combined with
  | some r => r
  | none => ⟨"Análise do tópico " ++ String.mk topic, [], [], []⟩

/-- `AIAnalyzer._topic_analysis`: one topic-structure request over the
first 5000 characters; on failure an error-tagged result, otherwise
one per-topic analysis each. -/
def topic_analysis (structOracle : Str → Except String TopicsStructure)
    (tOracle : Str → Str → Option TopicResult) (chunks : List Str) : AnalysisResult :=
  let all_text := joinSpace chunks
  match structOracle (all_text.take 5000) with
  | .error e => .errorResult ("Erro na análise por tópicos: " ++ e)
  | .ok ts =>
    .topics ts (ts.main_topics.map (fun t => (t, analyze_single_topic tOracle chunks t)))

/-- `AIAnalyzer._data_extraction`: one extraction request per chunk,
a failing chunk contributing nothing, then per-category
deduplication. -/
def data_extraction (oracle : Nat → Str → Option ExtractedRecord)
    (chunks : List Str) : AnalysisResult :=
  let acc := chunks.enum.foldl (fun (acc : ExtractedRecord) ic =>
    match oracle ic.1 ic.2 with
    | some r =>
      ⟨acc.dates ++ r.dates, acc.numbers ++ r.numbers, acc.percentages ++ r.percentages,
        acc.currencies ++ r.currencies, acc.names ++ r.names, acc.locations ++ r.locations,
        acc.organizations ++ r.organizations⟩
    | none => acc) ⟨[], [], [], [], [], [], []⟩
  .extraction ⟨acc.dates.dedup, acc.numbers.dedup, acc.percentages.dedup,
    acc.currencies.dedup, acc.names.dedup, acc.locations.dedup, acc.organizations.dedup⟩

/-- `AIAnalyzer._clause_analysis`: one request per chunk, tagging each
successful record with the 1-based chunk position and skipping failing
chunks. -/
def clause_analysis (oracle : Nat → Str → Option ClauseResponse)
    (chunks : List Str) : AnalysisResult :=
  .clauses (chunks.enum.filterMap (fun ic =>
    (oracle ic.1 ic.2).map (fun r =>
      ⟨r.clauses_found, r.key_terms, r.obligations, r.important_conditions, ic.1 + 1⟩)))

/-- Lexicographic comparison of two raw date strings by character
code, Python's `<` on `str`. -/
def lexLt : Str → Str → Bool
  | [], [] => false
  | [], _ :: _ => true
  | _ :: _, [] => false
  | a :: as, b :: bs =>
    if a.toNat < b.toNat then true
    else if b.toNat < a.toNat then false
    else lexLt as bs

/-- Insert into an ascending-by-date list, after all strictly smaller
dates and also after equal dates (folding from the right this keeps
Python's stable ascending `sort`). -/
def insertEvent (e : TimelineEvent) : List TimelineEvent → List TimelineEvent
  | [] => [e]
  | y :: ys => if lexLt y.date e.date then y :: insertEvent e ys else e :: y :: ys

/-- Stable ascending sort by the raw date string, Python
`events.sort(key=lambda x: x.get("date", ""))`. -/
def sortEvents (l : List TimelineEvent) : List TimelineEvent := l.foldr insertEvent []

/-- `AIAnalyzer._timeline_analysis`: one events request per chunk,
failing chunks contributing nothing, then the flattened list sorted
ascending by the raw date string. -/
def timeline_analysis (oracle : Nat → Str → Option (List TimelineEvent))
    (chunks : List Str) : TimelineResult :=
  let events := (chunks.enum.map (fun ic => (oracle ic.1 ic.2).getD [])).flatten
  ⟨"Timeline de Eventos", sortEvents events⟩

/-- `AIAnalyzer._general_analysis`: one free-form request over the
first 8000 characters; the raw response text is the result, an
error-tagged result on failure. -/
def general_analysis (oracle : Str → String → Except String String)
    (chunks : List Str) (analysis_type : String) : AnalysisResult :=
  match oracle ((joinSpace chunks).take 8000) analysis_type with
  | .ok r => .general analysis_type r
  | .error e => .errorResult ("Erro na análise: " ++ e)

/-- `AIAnalyzer.perform_detailed_analysis`: chunk the document (with
the default maximum size) and dispatch on the analysis type. -/
def perform_detailed_analysis (o : LLMOracles) (text_content : TextContent)
    (analysis_type : String) : AnalysisResult :=
  let chunks := create_chunks text_content
  if analysis_type = "Resumo Executivo" then
    .summary (executive_summary o.consolidation o.chunkSummary chunks)
  else if analysis_type = "Análise por Tópicos" then
    topic_analysis o.topicsStruct o.singleTopic chunks
  else if analysis_type = "Extração de Dados" then
    data_extraction o.extraction chunks
  else if analysis_type = "Análise de Cláusulas" then
    clause_analysis o.clauseQ chunks
  else if analysis_type = "Timeline de Eventos" then
    .timeline (timeline_analysis o.timelineQ chunks)
  else
    general_analysis o.generalQ chunks analysis_type

theorem lexLt_asymm : ∀ a b : Str, lexLt a b = true → lexLt b a = false := by
  intro a
  induction a with
  | nil =>
    intro b h
    cases b with
    | nil => simp [lexLt] at h
    | cons z zs => rfl
  | cons x xs ih =>
    intro b h
    cases b with
    | nil => simp [lexLt] at h
    | cons y ys =>
      rw [lexLt] at h ⊢
      by_cases hxy : x.toNat < y.toNat
      · rw [if_neg (by omega), if_pos hxy]
      · rw [if_neg hxy] at h
        by_cases hyx : y.toNat < x.toNat
        · rw [if_pos hyx] at h
          simp at h
        · rw [if_neg hyx] at h
          rw [if_neg hyx, if_neg hxy]
          exact ih ys h

theorem lexLt_neg_trans :
    ∀ a b c : Str, lexLt a b = false → lexLt b c = false → lexLt a c = false := by
  intro a
  induction a with
  | nil =>
    intro b c h1 h2
    cases b with
    | nil =>
      cases c with
      | nil => rfl
      | cons z zs => simp [lexLt] at h2
    | cons y ys => simp [lexLt] at h1
  | cons x xs ih =>
    intro b c h1 h2
    cases c with
    | nil => cases xs <;> rfl
    | cons z zs =>
      cases b with
      | nil => simp [lexLt] at h2
      | cons y ys =>
        rw [lexLt] at h1 h2 ⊢
        by_cases hxy : x.toNat < y.toNat
        · rw [if_pos hxy] at h1
          simp at h1
        · rw [if_neg hxy] at h1
          by_cases hyz : y.toNat < z.toNat
          · rw [if_pos hyz] at h2
            simp at h2
          · rw [if_neg hyz] at h2
            by_cases hxz : x.toNat < z.toNat
            · omega
            · rw [if_neg hxz]
              by_cases hzx : z.toNat < x.toNat
              · rw [if_pos hzx]
              · rw [if_neg hzx]
                rw [if_neg (by omega : ¬ y.toNat < x.toNat)] at h1
                rw [if_neg (by omega : ¬ z.toNat < y.toNat)] at h2
                exact ih ys zs h1 h2

theorem mem_insertEvent {e a : TimelineEvent} :
    ∀ {l : List TimelineEvent}, a ∈ insertEvent e l ↔ a = e ∨ a ∈ l := by
  intro l
  induction l with
  | nil => simp [insertEvent]
  | cons y ys ih =>
    rw [insertEvent]
    by_cases hlt : lexLt y.date e.date = true
    · rw [if_pos hlt]
      simp only [List.mem_cons, ih]
      exact or_left_comm
    · rw [if_neg hlt]
      simp only [List.mem_cons]

theorem insertEvent_perm (e : TimelineEvent) :
    ∀ l : List TimelineEvent, (insertEvent e l).Perm (e :: l) := by
  intro l
  induction l with
  | nil => exact List.Perm.refl _
  | cons y ys ih =>
    rw [insertEvent]
    by_cases hlt : lexLt y.date e.date = true
    · rw [if_pos hlt]
      exact List.Perm.trans (List.Perm.cons y ih) (List.Perm.swap e y ys)
    · rw [if_neg hlt]

theorem sortEvents_perm : ∀ l : List TimelineEvent, (sortEvents l).Perm l := by
  intro l
  induction l with
  | nil => exact List.Perm.refl _
  | cons x xs ih =>
    have h1 : sortEvents (x :: xs) = insertEvent x (sortEvents xs) := rfl
    rw [h1]
    exact List.Perm.trans (insertEvent_perm x (sortEvents xs)) (List.Perm.cons x ih)

theorem pairwise_insertEvent {e : TimelineEvent} :
    ∀ {l : List TimelineEvent},
      l.Pairwise (fun a b => lexLt b.date a.date = false) →
      (insertEvent e l).Pairwise (fun a b => lexLt b.date a.date = false) := by
  intro l
  induction l with
  | nil => intro _; simp [insertEvent, List.pairwise_cons]
  | cons y ys ih =>
    intro h
    obtain ⟨hy, hys⟩ := List.pairwise_cons.1 h
    rw [insertEvent]
    by_cases hlt : lexLt y.date e.date = true
    · rw [if_pos hlt]
      refine List.pairwise_cons.2 ⟨?_, ih hys⟩
      intro a ha
      rcases mem_insertEvent.1 ha with rfl | ha'
      · exact lexLt_asymm _ _ hlt
      · exact hy a ha'
    · rw [if_neg hlt]
      refine List.pairwise_cons.2 ⟨?_, h⟩
      intro a ha
      rcases List.mem_cons.1 ha with rfl | ha'
      · exact Bool.eq_false_iff.mpr hlt
      · exact lexLt_neg_trans a.date y.date e.date (hy a ha') (Bool.eq_false_iff.mpr hlt)

theorem sortEvents_sorted :
    ∀ l : List TimelineEvent,
      (sortEvents l).Pairwise (fun a b => lexLt b.date a.date = false) := by
  intro l
  induction l with
  | nil => simp [sortEvents]
  | cons x xs ih => exact pairwise_insertEvent ih

/-- Claim C5: when the consolidation request fails, the Executive
Summary result is still produced, with the first 5 collected main
points as key findings, the first 5 data items as important metrics,
the first 3 conclusions as main conclusions, and a placeholder summary
string; given three chunk summaries with one point each, the fallback
key findings are those three points in order. -/
theorem consolidation_fallback :
    (∀ summaries : List ChunkSummary,
      consolidate_summaries (fun _ _ _ => none) summaries =
        ⟨"Resumo Executivo", "Resumo não disponível devido a erro de processamento",
          ((summaries.map ChunkSummary.main_points).flatten).take 5,
          ((summaries.map ChunkSummary.important_data).flatten).take 5, [],
          ((summaries.map ChunkSummary.conclusions).flatten).take 3⟩) ∧
    (∀ p1 p2 p3 : String,
      (consolidate_summaries (fun _ _ _ => none)
        [⟨[p1], [], []⟩, ⟨[p2], [], []⟩, ⟨[p3], [], []⟩]).key_findings = [p1, p2, p3]) := by
  constructor
  · intro summaries
    rfl
  · intro p1 p2 p3
    rfl

/-- Date "2024-03-01" of the documented timeline example. -/
def d0301 : Str := ['2', '0', '2', '4', '-', '0', '3', '-', '0', '1']

/-- Date "2024-01-15" of the documented timeline example. -/
def d0115 : Str := ['2', '0', '2', '4', '-', '0', '1', '-', '1', '5']

/-- Date "2024-02-10" of the documented timeline example. -/
def d0210 : Str := ['2', '0', '2', '4', '-', '0', '2', '-', '1', '0']

/-- Three chunks for the timeline example. -/
def exTimelineChunks : List Str := [['x'], ['y'], ['z']]

/-- Timeline oracle of the example: one event per chunk, dated
"2024-03-01", "2024-01-15" and "2024-02-10" respectively. -/
def exTimelineOracle : Nat → Str → Option (List TimelineEvent) := fun i _ =>
  if i = 0 then some [⟨d0301, "a", "alta"⟩]
  else if i = 1 then some [⟨d0115, "b", "média"⟩]
  else some [⟨d0210, "c", "baixa"⟩]

/-- Claim C7: the Timeline analysis flattens all per-chunk event lists
and sorts ascending by the raw date string under lexicographic (not
calendar-aware) order; on the documented example the dates come out as
["2024-01-15", "2024-02-10", "2024-03-01"]. -/
theorem timeline_sorted_lexicographically :
    (∀ (oracle : Nat → Str → Option (List TimelineEvent)) (chunks : List Str),
      (timeline_analysis oracle chunks).analysis_type = "Timeline de Eventos" ∧
      ((timeline_analysis oracle chunks).timeline).Perm
        ((chunks.enum.map (fun ic => (oracle ic.1 ic.2).getD [])).flatten) ∧
      ((timeline_analysis oracle chunks).timeline).Pairwise
        (fun a b => lexLt b.date a.date = false)) ∧
    (timeline_analysis exTimelineOracle exTimelineChunks).timeline =
      [⟨d0115, "b", "média"⟩, ⟨d0210, "c", "baixa"⟩, ⟨d0301, "a", "alta"⟩] := by
  constructor
  · intro oracle chunks
    exact ⟨rfl, sortEvents_perm _, sortEvents_sorted _⟩
  · rfl

theorem foldl_fixed {α β : Type} {f : α → β → α} (hf : ∀ a b, f a b = a) :
    ∀ (l : List β) (a : α), l.foldl f a = a := by
  intro l
  induction l with
  | nil => intro a; rfl
  | cons x xs ih =>
    intro a
    rw [List.foldl_cons, hf]
    exact ih a

theorem flatten_map_nil {β γ : Type} {g : β → List γ} (hg : ∀ b, g b = []) :
    ∀ l : List β, (l.map g).flatten = [] := by
  intro l
  induction l with
  | nil => rfl
  | cons x xs ih =>
    rw [List.map_cons, List.flatten_cons, hg, ih]
    rfl

theorem data_extraction_all_fail (chunks : List Str) :
    data_extraction (fun _ _ => none) chunks = .extraction ⟨[], [], [], [], [], [], []⟩ := by
  unfold data_extraction
  rw [foldl_fixed (fun a b => rfl)]
  rfl

theorem clause_analysis_all_fail (chunks : List Str) :
    clause_analysis (fun _ _ => none) chunks = .clauses [] := by
  unfold clause_analysis
  exact congrArg AnalysisResult.clauses (List.filterMap_eq_nil_iff.2 (fun a _ => rfl))

theorem timeline_analysis_all_fail (chunks : List Str) :
    timeline_analysis (fun _ _ => none) chunks = ⟨"Timeline de Eventos", []⟩ := by
  exact congrArg (fun ev => TimelineResult.mk "Timeline de Eventos" (sortEvents ev))
    (flatten_map_nil (fun b => rfl) chunks.enum)

/-- Claim C2: for every chunk set (obtained from any document text)
and every analysis kind, the orchestrator returns a result value of
the proper shape for any pattern of per-call failures — per-chunk and
per-topic failures are absorbed into defaults or omissions — and when
every LLM call fails, the Topic and general strategies return an
error-tagged result carrying the exception text while the per-chunk
strategies return their absorbed defaults; no strategy ever raises. -/
theorem analyzer_failure_absorption :
    ∀ (o : LLMOracles) (tc : TextContent) (e : String),
      (∃ r, perform_detailed_analysis o tc "Resumo Executivo" = .summary r) ∧
      (∃ d, perform_detailed_analysis o tc "Extração de Dados" = .extraction d) ∧
      (∃ cs, perform_detailed_analysis o tc "Análise de Cláusulas" = .clauses cs) ∧
      (∃ ev, perform_detailed_analysis o tc "Timeline de Eventos" = .timeline ev) ∧
      ((∃ m, perform_detailed_analysis o tc "Análise por Tópicos" = .errorResult m) ∨
        (∃ ts tas, perform_detailed_analysis o tc "Análise por Tópicos" = .topics ts tas)) ∧
      (perform_detailed_analysis (failingOracles e) tc "Análise por Tópicos" =
        .errorResult ("Erro na análise por tópicos: " ++ e)) ∧
      (perform_detailed_analysis (failingOracles e) tc "Resumo Executivo" =
        .summary (executive_summary (fun _ _ _ => none) (fun _ _ => none)
          (create_chunks tc))) ∧
      ((executive_summary (fun _ _ _ => none) (fun _ _ => none)
          (create_chunks tc)).executive_summary =
        "Resumo não disponível devido a erro de processamento") ∧
      (perform_detailed_analysis (failingOracles e) tc "Extração de Dados" =
        .extraction ⟨[], [], [], [], [], [], []⟩) ∧
      (perform_detailed_analysis (failingOracles e) tc "Análise de Cláusulas" =
        .clauses []) ∧
      (perform_detailed_analysis (failingOracles e) tc "Timeline de Eventos" =
        .timeline ⟨"Timeline de Eventos", []⟩) ∧
      (∀ atype : String, atype ≠ "Resumo Executivo" → atype ≠ "Análise por Tópicos" →
        atype ≠ "Extração de Dados" → atype ≠ "Análise de Cláusulas" →
        atype ≠ "Timeline de Eventos" →
        perform_detailed_analysis (failingOracles e) tc atype =
          .errorResult ("Erro na análise: " ++ e)) := by
  intro o tc e
  refine ⟨⟨_, rfl⟩, ?_, ?_, ⟨_, rfl⟩, ?_, rfl, rfl, rfl, ?_, ?_, ?_, ?_⟩
  · exact ⟨_, rfl⟩
  · exact ⟨_, rfl⟩
  · have hdisp : perform_detailed_analysis o tc "Análise por Tópicos" =
        topic_analysis o.topicsStruct o.singleTopic (create_chunks tc) := rfl
    rw [hdisp]
    simp only [topic_analysis]
    cases htop : o.topicsStruct ((joinSpace (create_chunks tc)).take 5000) with
    | error m => exact Or.inl ⟨_, rfl⟩
    | ok ts => exact Or.inr ⟨ts, _, rfl⟩
  · have hdisp : perform_detailed_analysis (failingOracles e) tc "Extração de Dados" =
        data_extraction (fun _ _ => none) (create_chunks tc) := rfl
    rw [hdisp, data_extraction_all_fail]
  · have hdisp : perform_detailed_analysis (failingOracles e) tc "Análise de Cláusulas" =
        clause_analysis (fun _ _ => none) (create_chunks tc) := rfl
    rw [hdisp, clause_analysis_all_fail]
  · have hdisp : perform_detailed_analysis (failingOracles e) tc "Timeline de Eventos" =
        .timeline (timeline_analysis (fun _ _ => none) (create_chunks tc)) := rfl
    rw [hdisp, timeline_analysis_all_fail]
  · intro atype h1 h2 h3 h4 h5
    unfold perform_detailed_analysis
    rw [if_neg h1, if_neg h2, if_neg h3, if_neg h4, if_neg h5]
    rfl

/-- Witness for `analyzer_failure_absorption`: a free-form analysis
kind under total LLM failure yields the error-tagged result. -/
theorem analyzer_failure_absorption_witness :
    perform_detailed_analysis (failingOracles "x") ⟨['o', 'i'], ⟨"X", 0⟩⟩
      "Análise Comparativa" = .errorResult ("Erro na análise: " ++ "x") :=
  (analyzer_failure_absorption (failingOracles "x") ⟨['o', 'i'], ⟨"X", 0⟩⟩
    "x").2.2.2.2.2.2.2.2.2.2.2 "Análise Comparativa"
    (by decide) (by decide) (by decide) (by decide) (by decide)

/-! ### Chatbot folder ingestion (`DocumentChatbot.process_folder`)

The recursive directory walk is modelled as the list of regular files
it yields, in walk order; the extraction collaborator (whose failure,
or a failure while chunking the extracted text, is what the per-file
`try/except` absorbs) is an oracle returning `none` on failure; the
TF-IDF vectorizer fit is an oracle `fitOk` telling whether
`fit_transform` succeeds on a corpus, the fitted matrix being modelled
by the corpus it was built over. -/

/-- A regular file yielded by the folder walk. -/
structure FileEntry where
  name : String
  path : String
  suffix : Str
deriving DecidableEq

/-- The `.pdf` extension. -/
def pdfExt : Str := ['.', 'p', 'd', 'f']

/-- The `.docx` extension. -/
def docxExt : Str := ['.', 'd', 'o', 'c', 'x']

/-- The `.pptx` extension. -/
def pptxExt : Str := ['.', 'p', 'p', 't', 'x']

/-- `file_path.suffix.lower() in ['.pdf', '.docx', '.pptx']`. -/
def supportedExt (f : FileEntry) : Bool :=
  toLowerStr f.suffix == pdfExt || toLowerStr f.suffix == docxExt ||
    toLowerStr f.suffix == pptxExt

/-- The per-document record `process_folder` stores
(`filename`, `path`, `type`, `chunk_count`, `word_count`). -/
structure DocInfo where
  filename : String
  path : String
  doc_type : String
  chunk_count : Nat
  word_count : Nat
deriving DecidableEq

/-- The chatbot session state relevant to ingestion: the processed
documents, the cross-document chunk list, and the fitted TF-IDF index
modelled by the corpus it was built over (`none` = unavailable). -/
structure ChatbotState where
  documents : List DocInfo
  chunks : List ChunkInfo
  tfidf_corpus : Option (List Str)
deriving DecidableEq

/-- The `doc_info` record built for one successfully processed file. -/
def mkDocInfo (f : FileEntry) (tc : TextContent) : DocInfo :=
  ⟨f.name, f.path, tc.metadata.document_type, (create_chunks tc).length,
    (pySplit tc.full_text).length⟩

/-- The `chunk_info` records built for one successfully processed
file: each chunk with the file name, its index and the document type. -/
def mkChunkInfos (f : FileEntry) (tc : TextContent) : List ChunkInfo :=
  (create_chunks tc).enum.map (fun ic => ⟨ic.2, f.name, ic.1, tc.metadata.document_type⟩)

/-- `DocumentChatbot._create_search_index`: nothing to do on an empty
chunk list (the previous index value is left in place); otherwise fit
the vectorizer over the chunk texts, recording `none` if the fit
raises. -/
def create_search_index (fitOk : List Str → Bool) (st : ChatbotState) : ChatbotState :=
  if st.chunks.isEmpty then st
  else
    if fitOk (st.chunks.map ChunkInfo.text) then
      ⟨st.documents, st.chunks, some (st.chunks.map ChunkInfo.text)⟩
    else
      ⟨st.documents, st.chunks, none⟩

/-- The loop body of `process_folder`: skip unsupported extensions,
skip a file whose extraction (or chunking) fails, and accumulate the
document record and chunk records of a successful file. -/
def ingestStep (extract : FileEntry → Option TextContent)
    (acc : List DocInfo × List ChunkInfo) (f : FileEntry) : List DocInfo × List ChunkInfo :=
  if supportedExt f then
    match extract f with
    | none => acc
    | some tc => (acc.1 ++ [mkDocInfo f tc], acc.2 ++ mkChunkInfos f tc)
  else acc

/-- `DocumentChatbot.process_folder`: walk the files, accumulate
documents and chunks of the successfully processed ones, store them,
rebuild the search index once, and return the new state together with
the count of processed documents. -/
def process_folder (extract : FileEntry → Option TextContent) (fitOk : List Str → Bool)
    (files : List FileEntry) (st : ChatbotState) : ChatbotState × Nat :=
  let dc := files.foldl (ingestStep extract) ([], [])
  let st2 := create_search_index fitOk ⟨dc.1, dc.2, st.tfidf_corpus⟩
  (st2, dc.1.length)

/-- The document records one file contributes (none when skipped). -/
def docOfFile (extract : FileEntry → Option TextContent) (f : FileEntry) : List DocInfo :=
  if supportedExt f then
    match extract f with
    | none => []
    | some tc => [mkDocInfo f tc]
  else []

/-- The chunk records one file contributes (none when skipped). -/
def chunksOfFile (extract : FileEntry → Option TextContent) (f : FileEntry) : List ChunkInfo :=
  if supportedExt f then
    match extract f with
    | none => []
    | some tc => mkChunkInfos f tc
  else []

theorem ingest_foldl (extract : FileEntry → Option TextContent) :
    ∀ (files : List FileEntry) (d : List DocInfo) (c : List ChunkInfo),
      files.foldl (ingestStep extract) (d, c) =
        (d ++ files.flatMap (docOfFile extract), c ++ files.flatMap (chunksOfFile extract)) := by
  intro files
  induction files with
  | nil =>
    intro d c
    simp
  | cons f fs ih =>
    intro d c
    rw [List.foldl_cons, List.flatMap_cons, List.flatMap_cons]
    have hstep : ingestStep extract (d, c) f =
        (d ++ docOfFile extract f, c ++ chunksOfFile extract f) := by
      unfold ingestStep docOfFile chunksOfFile
      by_cases hs : supportedExt f = true
      · rw [if_pos hs, if_pos hs, if_pos hs]
        cases extract f with
        | none => simp
        | some tc => simp
      · rw [if_neg hs, if_neg hs, if_neg hs]
        simp
    rw [hstep, ih]
    simp [List.append_assoc]

theorem docOf_count (extract : FileEntry → Option TextContent) :
    ∀ files : List FileEntry,
      (files.flatMap (docOfFile extract)).length =
        (files.filter (fun f => supportedExt f && (extract f).isSome)).length := by
  intro files
  induction files with
  | nil => rfl
  | cons f fs ih =>
    rw [List.flatMap_cons, List.filter_cons, List.length_append, ih]
    unfold docOfFile
    by_cases hs : supportedExt f = true
    · rw [if_pos hs]
      cases hx : extract f with
      | none => simp [hs, hx]
      | some tc =>
        simp [hs, hx]
        omega
    · rw [if_neg hs]
      simp [hs]

theorem create_search_index_fields (fitOk : List Str → Bool) (st : ChatbotState) :
    (create_search_index fitOk st).documents = st.documents ∧
      (create_search_index fitOk st).chunks = st.chunks := by
  unfold create_search_index
  by_cases h : st.chunks.isEmpty = true
  · rw [if_pos h]
    exact ⟨rfl, rfl⟩
  · rw [if_neg h]
    by_cases hf : fitOk (st.chunks.map ChunkInfo.text) = true
    · rw [if_pos hf]
      exact ⟨rfl, rfl⟩
    · rw [if_neg hf]
      exact ⟨rfl, rfl⟩

theorem create_search_index_corpus (fitOk : List Str → Bool) (st : ChatbotState)
    (h1 : st.chunks ≠ []) (h2 : fitOk (st.chunks.map ChunkInfo.text) = true) :
    (create_search_index fitOk st).tfidf_corpus = some (st.chunks.map ChunkInfo.text) := by
  unfold create_search_index
  rw [if_neg (fun hemp => h1 (List.isEmpty_iff.1 hemp)), if_pos h2]

/-- Claim C8: ingestion considers only supported extensions, a failing
file is skipped while the rest continue, the returned count is the
number of successfully processed documents, and the rebuilt index is
over exactly the successfully processed files' chunks. -/
theorem process_folder_skips_failures :
    ∀ (extract : FileEntry → Option TextContent) (fitOk : List Str → Bool)
      (files : List FileEntry) (st : ChatbotState),
      (process_folder extract fitOk files st).2 =
        (files.filter (fun f => supportedExt f && (extract f).isSome)).length ∧
      (process_folder extract fitOk files st).1.documents =
        files.flatMap (docOfFile extract) ∧
      (process_folder extract fitOk files st).1.chunks =
        files.flatMap (chunksOfFile extract) ∧
      (files.flatMap (chunksOfFile extract) ≠ [] →
        fitOk ((files.flatMap (chunksOfFile extract)).map ChunkInfo.text) = true →
        (process_folder extract fitOk files st).1.tfidf_corpus =
          some ((files.flatMap (chunksOfFile extract)).map ChunkInfo.text)) := by
  intro extract fitOk files st
  have hfold := ingest_foldl extract files [] []
  rw [List.nil_append, List.nil_append] at hfold
  have hpf : process_folder extract fitOk files st =
      (create_search_index fitOk
        ⟨files.flatMap (docOfFile extract), files.flatMap (chunksOfFile extract),
          st.tfidf_corpus⟩,
        (files.flatMap (docOfFile extract)).length) := by
    unfold process_folder
    rw [hfold]
  refine ⟨?_, ?_, ?_, ?_⟩
  · rw [hpf]
    exact docOf_count extract files
  · rw [hpf]
    exact (create_search_index_fields fitOk _).1
  · rw [hpf]
    exact (create_search_index_fields fitOk _).2
  · intro hne hfit
    rw [hpf]
    exact create_search_index_corpus fitOk _ hne hfit

/-- First example file for the ingestion witness. -/
def exFileA : FileEntry := ⟨"a.pdf", "/d/a.pdf", ['.', 'p', 'd', 'f']⟩

/-- Second (corrupt) example file for the ingestion witness. -/
def exFileB : FileEntry := ⟨"b.pdf", "/d/b.pdf", ['.', 'p', 'd', 'f']⟩

/-- Third example file for the ingestion witness. -/
def exFileC : FileEntry := ⟨"c.pdf", "/d/c.pdf", ['.', 'p', 'd', 'f']⟩

/-- Example extraction oracle: fails on the corrupt `b.pdf` only. -/
def exExtract : FileEntry → Option TextContent := fun f =>
  if f.name = "b.pdf" then none else some ⟨['o', 'k'], ⟨"PDF", 1⟩⟩

/-- Witness for `process_folder_skips_failures`: of three files the
corrupt one is skipped, the count is 2, and the index holds exactly
the two valid files' chunks. -/
theorem process_folder_skips_failures_witness :
    (process_folder exExtract (fun _ => true) [exFileA, exFileB, exFileC] ⟨[], [], none⟩).2 = 2 ∧
    (process_folder exExtract (fun _ => true) [exFileA, exFileB, exFileC]
      ⟨[], [], none⟩).1.chunks =
      [⟨['o', 'k', '.'], "a.pdf", 0, "PDF"⟩, ⟨['o', 'k', '.'], "c.pdf", 0, "PDF"⟩] ∧
    (process_folder exExtract (fun _ => true) [exFileA, exFileB, exFileC]
      ⟨[], [], none⟩).1.tfidf_corpus = some [['o', 'k', '.'], ['o', 'k', '.']] := by
  have h := process_folder_skips_failures exExtract (fun _ => true)
    [exFileA, exFileB, exFileC] ⟨[], [], none⟩
  refine ⟨?_, ?_, ?_⟩
  · rw [h.1]
    decide
  · rw [h.2.2.1]
    decide
  · rw [h.2.2.2 (by decide) (by decide)]
    decide

end GR
